import Mathlib

/-!
# Verification development for `ada` (character sets and percent-encode index)

Shallow embedding of `include/ada/character_set.h`, `include/ada/unicode-inl.h`
and of the declarations in `include/ada/url_aggregator.h`.

Conventions of the embedding:

* a `char` / `unsigned char` is a natural number; `static_cast<unsigned char>(c)`
  is `c % 256`, so every function is total on `Nat` and depends on its byte
  argument only through `c % 256`;
* a `std::uint64_t` is a natural number below `2 ^ 64`; the two operations of
  the source that could leave that range (`<<` and `~`) reduce modulo `2 ^ 64`
  explicitly.
-/

namespace Ada

/-- The bytes of an ASCII string literal, without the terminating NUL. -/
def bytes (s : String) : List Nat := s.toList.map Char.toNat

/-- The storage of an ASCII string literal: its bytes followed by the NUL. -/
def literal (s : String) : List Nat := bytes s ++ [0]

/-! ## `character_set.h` -/

/-- The class `charset`: the four words of `std::uint64_t mask_[4]`.
The defaulted constructor `charset()` leaves all four words `0`. -/
structure charset where
  m0 : Nat := 0
  m1 : Nat := 0
  m2 : Nat := 0
  m3 : Nat := 0
  deriving DecidableEq, Repr

namespace charset

/-- Every mask word fits in 64 bits (the range of `std::uint64_t`). -/
def WF (cs : charset) : Prop :=
  cs.m0 < 2 ^ 64 ∧ cs.m1 < 2 ^ 64 ∧ cs.m2 < 2 ^ 64 ∧ cs.m3 < 2 ^ 64

instance (cs : charset) : Decidable cs.WF := by
  unfold WF; infer_instance

/-- The array access `mask_[i]`.  Indices `0..3` select the four words; the
source never uses another index (`lo` returns a value below `4`), and the
embedding reads `0` there. -/
def mask_ (cs : charset) (i : Nat) : Nat :=
  match i with
  | 0 => cs.m0
  | 1 => cs.m1
  | 2 => cs.m2
  | 3 => cs.m3
  | _ => 0

/-- `lo(char c)`: `static_cast<unsigned char>(c) & 3`. -/
def lo (c : Nat) : Nat := (c % 256) &&& 3

/-- `hi(char c)`: `1ULL << (static_cast<unsigned char>(c) >> 2)`. -/
def hi (c : Nat) : Nat := (1 <<< ((c % 256) >>> 2)) % 2 ^ 64

/-- `~x` on a `std::uint64_t`. -/
def not64 (x : Nat) : Nat := 2 ^ 64 - 1 - x % 2 ^ 64

/-- The constructor `charset(char ch)`. -/
def ofChar (ch : Nat) : charset :=
  { m0 := if lo ch = 0 then hi ch else 0
    m1 := if lo ch = 1 then hi ch else 0
    m2 := if lo ch = 2 then hi ch else 0
    m3 := if lo ch = 3 then hi ch else 0 }

/-- `operator()(unsigned char ch)`: `mask_[lo(ch)] & hi(ch)` converted to `bool`. -/
def contains (cs : charset) (ch : Nat) : Bool :=
  (cs.mask_ (lo ch) &&& hi ch) != 0

/-- `operator+(cs0, cs1)`. -/
def union (cs0 cs1 : charset) : charset :=
  { m0 := cs0.mask_ 0 ||| cs1.mask_ 0
    m1 := cs0.mask_ 1 ||| cs1.mask_ 1
    m2 := cs0.mask_ 2 ||| cs1.mask_ 2
    m3 := cs0.mask_ 3 ||| cs1.mask_ 3 }

/-- `operator-(cs0, cs1)`. -/
def diff (cs0 cs1 : charset) : charset :=
  { m0 := cs0.mask_ 0 &&& not64 (cs1.mask_ 0)
    m1 := cs0.mask_ 1 &&& not64 (cs1.mask_ 1)
    m2 := cs0.mask_ 2 &&& not64 (cs1.mask_ 2)
    m3 := cs0.mask_ 3 &&& not64 (cs1.mask_ 3) }

/-- `operator~()`. -/
def compl (cs : charset) : charset :=
  { m0 := not64 (cs.mask_ 0)
    m1 := not64 (cs.mask_ 1)
    m2 := not64 (cs.mask_ 2)
    m3 := not64 (cs.mask_ 3) }

instance : Add charset := ⟨union⟩
instance : Sub charset := ⟨diff⟩
instance : Complement charset := ⟨compl⟩

end charset

namespace charset

/-- The overload `construct(char const* s)`.  The argument is the sequence of
bytes stored from `s` onwards; the recursion stops at the first NUL.  Running
off the end of the storage without meeting a NUL (undefined behaviour in the
source) is `none`. -/
def construct : List Nat → Option charset
  | [] => none
  | c :: rest =>
    if c % 256 = 0 then some {}
    else
      match construct rest with
      | none => none
      | some r => some (ofChar c + r)

/-- The overload `construct(unsigned char ch, bool b)`. -/
def constructBool (ch : Nat) (b : Bool) : charset :=
  if b then ofChar ch else {}

/-- The overload `construct(Pred const& pred, unsigned char ch)`.  The
parameter is an `unsigned char`, so the argument is first reduced modulo 256
(this is also what happens to the `int` value `ch + 1` of the recursive call).
The predicate receives that byte (as a `char` with the same bit pattern). -/
def constructPred (pred : Nat → Bool) (ch : Nat) : charset :=
  if ch % 256 = 255 then
    constructBool (ch % 256) (pred (ch % 256))
  else
    constructBool (ch % 256) (pred (ch % 256)) + constructPred pred (ch % 256 + 1)
termination_by 255 - ch % 256
decreasing_by
  have : ch % 256 < 256 := Nat.mod_lt _ (by decide)
  omega

/-- The constructor `charset(char const* s)`: delegates to `construct(s)`. -/
def ofString (s : List Nat) : Option charset := construct s

/-- The constructor `charset(Pred const& pred)`: delegates to `construct(pred, 0)`. -/
def ofPred (pred : Nat → Bool) : charset := constructPred pred 0

/-- The documentation example `is_digit::operator()(char c)`:
`c >= '0' && c <= '9'`.  On a byte at or above 128 the result is `false`
whether `char` is signed (the value is negative) or unsigned (it exceeds `'9'`),
so the byte value can stand for the `char`. -/
def is_digit (c : Nat) : Bool := decide (48 ≤ c) && decide (c ≤ 57)

/-- The array access `mask_[i]` with the bound of the array made explicit:
an index outside `0..3` (undefined behaviour in the source) is `none`. -/
def mask_checked (cs : charset) (i : Nat) : Option Nat :=
  match i with
  | 0 => some cs.m0
  | 1 => some cs.m1
  | 2 => some cs.m2
  | 3 => some cs.m3
  | _ => none

/-- The shift `x << k` on a `std::uint64_t` with the limit of the shift made
explicit: a shift by 64 or more (undefined behaviour in the source) is `none`. -/
def shl64_checked (x k : Nat) : Option Nat :=
  if k < 64 then some ((x <<< k) % 2 ^ 64) else none

/-- `operator()(unsigned char ch)` evaluated with the checked array access and
the checked shift: `none` if either would be undefined. -/
def contains_checked (cs : charset) (ch : Nat) : Option Bool :=
  match shl64_checked 1 ((ch % 256) >>> 2), mask_checked cs (lo ch) with
  | some h, some m => some ((m &&& h) != 0)
  | _, _ => none

end charset

/-! ## `unicode-inl.h` -/

namespace unicode

/-- The algorithm `std::find_if(first, last, p)` of the standard library over
the bytes of a `std::string_view`: the list holds the bytes of `[first, last)`
and `first` is the position of the iterator; the result is the position of the
first byte satisfying `p`, or the position `last`. -/
def find_if (p : Nat → Bool) : List Nat → Nat → Nat
  | [], first => first
  | c :: rest, first => if p c then first else find_if p rest (first + 1)

/-- `percent_encode_index(input, cs)`:
`std::distance(input.begin(), std::find_if(input.begin(), input.end(), cs))`. -/
def percent_encode_index (input : List Nat) (cs : charset) : Nat :=
  find_if cs.contains input 0 - 0

/-- Modelled from the spec: the uppercase hexadecimal digit of a value below 16
(the function `percent_encode` is declared in the missing `ada/unicode.h`). -/
def hex_digit (d : Nat) : Nat := if d < 10 then 48 + d else 55 + d

/-- Modelled from the spec: `percent_encode(byte, set)`, whose body is missing.
Section 4.2: "if byte is in `set` or is > 0x7E or < 0x20, emit `%XX` uppercase
hex; else emit the byte verbatim". -/
def percent_encode (byte : Nat) (cs : charset) : List Nat :=
  if cs.contains byte || decide (0x7E < byte) || decide (byte < 0x20) then
    [37, hex_digit (byte / 16), hex_digit (byte % 16)]
  else [byte]

/-- Modelled from the spec: `percent_encode_string(s, set, space_as_plus)`, whose
body is missing.  Section 4.2: "apply the above to every byte; if
`space_as_plus`, emit `+` for 0x20". -/
def percent_encode_string (s : List Nat) (cs : charset) (space_as_plus : Bool) :
    List Nat :=
  s.flatMap (fun b => if space_as_plus && b == 0x20 then [43] else percent_encode b cs)

end unicode

/-! ## `url_aggregator.h`

The header declares the data members and the setters of `url_aggregator`; the
bodies of the setters and the type `url_components` are not among the sources.
The return types below are those of the declarations; the behaviour of the
bodies follows the specification (sections 3, 4.6 and 4.7). -/

/-- Modelled from the spec: the type `url_components` (declared in
`ada/url_components.h`, which is missing).  Section 3: the components are
half-open ranges into the serialization buffer; scheme and path are always
present, an absent optional component is distinct from an empty one. -/
structure url_components where
  scheme : Nat × Nat
  username : Option (Nat × Nat)
  password : Option (Nat × Nat)
  host : Option (Nat × Nat)
  port : Option (Nat × Nat)
  path : Nat × Nat
  query : Option (Nat × Nat)
  fragment : Option (Nat × Nat)
  deriving DecidableEq, Repr

/-- The data members of `struct url_aggregator`: `std::string buffer` and
`url_components components`. -/
structure url_aggregator where
  buffer : List Nat
  components : url_components
  deriving DecidableEq, Repr

/-- The return type written in the declaration of a member function. -/
inductive return_type where
  | bool
  | void
  deriving DecidableEq, Repr

/-- The nine setters declared in `struct url_aggregator`, in declaration order. -/
inductive setter where
  | set_username
  | set_password
  | set_href
  | set_port
  | set_search
  | set_pathname
  | set_host
  | set_hostname
  | set_protocol
  deriving DecidableEq, Repr

/-- The declared return type of each setter (`url_aggregator.h`, lines 23 to 31). -/
def setter.declared_return : setter → return_type
  | .set_username => .bool
  | .set_password => .bool
  | .set_href => .bool
  | .set_port => .bool
  | .set_search => .void
  | .set_pathname => .bool
  | .set_host => .bool
  | .set_hostname => .bool
  | .set_protocol => .bool

/-- Modelled from the spec: the states in which a setter re-enters the state
machine (the setter bodies are missing); section 4.6, column "Override state". -/
inductive state where
  | SchemeStart
  | Host
  | Hostname
  | Port
  | PathStart
  | Query
  deriving DecidableEq, Repr

/-- Modelled from the spec: the collaborators of the setters whose algorithms
the specification does not give (the setter bodies and everything they call are
missing).  `machine` is the parser of section 4.5, entered with an optional state
override, which "either succeeds with a URL value or fails"; `write_username`
and `write_password` percent-encode the input under the userinfo set and splice
it into the buffer; `clear_search` makes the query absent;
`opaque_pathname_result` is the boolean `set_pathname` reports for its no-op
on an opaque path. -/
structure collaborators where
  machine : Option state → url_aggregator → List Nat → Option url_aggregator
  write_username : url_aggregator → List Nat → url_aggregator
  write_password : url_aggregator → List Nat → url_aggregator
  clear_search : url_aggregator → url_aggregator
  opaque_pathname_result : Bool

namespace url_aggregator

/-- The bytes of the buffer in the half-open range `r`. -/
def slice (u : url_aggregator) (r : Nat × Nat) : List Nat :=
  (u.buffer.drop r.1).take (r.2 - r.1)

/-- Modelled from the spec: the scheme name of a URL value (no accessor body is
among the sources).  Section 3: the scheme is stored in the buffer followed by
its `:`. -/
def scheme_name (u : url_aggregator) : List Nat :=
  (u.slice u.components.scheme).takeWhile (fun c => c != 58)

/-- Modelled from the spec: the special schemes of the glossary (`ftp`, `file`,
`http`, `https`, `ws`, `wss`); the scheme table is missing. -/
def is_special (u : url_aggregator) : Bool :=
  [bytes "ftp", bytes "file", bytes "http", bytes "https", bytes "ws", bytes "wss"].contains
    u.scheme_name

/-- Modelled from the spec: section 4.6, "URL cannot have credentials (null
host, `file`, or empty host)", the same exclusions applying to the port; the
body that tests this is missing. -/
def cannot_have_credentials_or_port (u : url_aggregator) : Bool :=
  match u.components.host with
  | none => true
  | some r => u.scheme_name == bytes "file" || (u.slice r).isEmpty

/-- Modelled from the spec: section 3, "Path is opaque iff host is null and
scheme is non-special and path does not begin with `/`"; the body that tests
this is missing. -/
def has_opaque_path (u : url_aggregator) : Bool :=
  u.components.host.isNone && !u.is_special &&
    (u.slice u.components.path).head? != some 47

/-- What a call of a setter yields: the returned boolean (`none` for a setter
declared `void`) and the URL value after the call. -/
structure outcome where
  ret : Option Bool
  url : url_aggregator

/-- A setter that re-enters the machine: success installs the new value,
failure reports `false` and keeps the value. -/
def reenter (c : collaborators) (st : Option state) (u : url_aggregator)
    (input : List Nat) : outcome :=
  match c.machine st u input with
  | some v => { ret := some true, url := v }
  | none => { ret := some false, url := u }

/-- Modelled from the spec: the body of each setter of `url_aggregator` (the
bodies are missing), section 4.6: each setter re-enters the state machine in
its override state or writes the component directly, under the additional
rules of the table; "each setter that succeeds incrementally updates the
serialization buffer and component ranges; failure leaves the value unchanged".
The shape of the result follows the declared return type. -/
def call (c : collaborators) (s : setter) (u : url_aggregator) (input : List Nat) :
    outcome :=
  match s with
  | .set_username =>
    if u.cannot_have_credentials_or_port then { ret := some false, url := u }
    else { ret := some true, url := c.write_username u input }
  | .set_password =>
    if u.cannot_have_credentials_or_port then { ret := some false, url := u }
    else { ret := some true, url := c.write_password u input }
  | .set_href => reenter c none u input
  | .set_port =>
    if u.cannot_have_credentials_or_port then { ret := some false, url := u }
    else reenter c (some .Port) u input
  | .set_search =>
    let body := if input.head? = some 63 then input.tail else input
    { ret := none
      url :=
        if body.isEmpty then c.clear_search u
        else
          match c.machine (some .Query) u body with
          | some v => v
          | none => u }
  | .set_pathname =>
    if u.has_opaque_path then { ret := some c.opaque_pathname_result, url := u }
    else reenter c (some .PathStart) u input
  | .set_host => reenter c (some .Host) u input
  | .set_hostname => reenter c (some .Hostname) u input
  | .set_protocol =>
    let name := if input.getLast? = some 58 then input.dropLast else input
    reenter c (some .SchemeStart) u name

/-- A URL value for `http://a/` (the value of the setter scenarios of
section 8). -/
def example_url : url_aggregator :=
  { buffer := bytes "http://a/"
    components :=
      { scheme := (0, 5), username := none, password := none, host := some (7, 8),
        port := none, path := (8, 9), query := none, fragment := none } }

/-- Collaborators whose machine rejects every input and whose writers leave the
value as it is. -/
def rejecting : collaborators :=
  { machine := fun _ _ _ => none
    write_username := fun u _ => u
    write_password := fun u _ => u
    clear_search := fun u => u
    opaque_pathname_result := false }

end url_aggregator

/-! ## Basic facts about bytes and mask words -/

namespace charset

theorem byte_shift_lt (c : Nat) : (c % 256) >>> 2 < 64 := by
  rw [Nat.shiftRight_eq_div_pow]
  have : c % 256 < 256 := Nat.mod_lt _ (by decide)
  omega

theorem lo_eq_mod (c : Nat) : lo c = c % 4 := by
  unfold lo
  have h := Nat.and_pow_two_sub_one_eq_mod (c % 256) 2
  have e : (2 : Nat) ^ 2 - 1 = 3 := by decide
  rw [e] at h
  rw [h]
  omega

theorem lo_lt (c : Nat) : lo c < 4 := by
  rw [lo_eq_mod]; omega

theorem hi_eq_two_pow (c : Nat) : hi c = 2 ^ ((c % 256) >>> 2) := by
  unfold hi
  rw [Nat.one_shiftLeft]
  exact Nat.mod_eq_of_lt (Nat.pow_lt_pow_right (by decide) (byte_shift_lt c))

/-- Masking with a single bit is non-zero exactly when that bit is set. -/
theorem and_two_pow_ne_zero (m k : Nat) : ((m &&& 2 ^ k) != 0) = m.testBit k := by
  cases h : m.testBit k
  · have : m &&& 2 ^ k = 0 := by
      apply Nat.eq_of_testBit_eq
      intro j
      rw [Nat.testBit_and, Nat.testBit_two_pow, Nat.zero_testBit]
      by_cases hj : k = j
      · subst hj; simp [h]
      · simp [hj]
    simp [this]
  · have hb : (m &&& 2 ^ k).testBit k = true := by
      rw [Nat.testBit_and, Nat.testBit_two_pow_self, h]; rfl
    have : m &&& 2 ^ k ≠ 0 := by
      intro h0
      rw [h0, Nat.zero_testBit] at hb
      exact Bool.noConfusion hb
    simpa using this

/-- Membership reads bit `ch >> 2` of word `ch & 3`. -/
theorem contains_eq_testBit (cs : charset) (ch : Nat) :
    cs.contains ch = (cs.mask_ (lo ch)).testBit ((ch % 256) >>> 2) := by
  unfold contains
  rw [hi_eq_two_pow, and_two_pow_ne_zero]

theorem testBit_not64 (x i : Nat) (hi : i < 64) :
    (not64 x).testBit i = !x.testBit i := by
  unfold not64
  have hx : x % 2 ^ 64 < 2 ^ 64 := Nat.mod_lt _ (by decide)
  have e : 2 ^ 64 - 1 - x % 2 ^ 64 = 2 ^ 64 - (x % 2 ^ 64 + 1) := by omega
  rw [e, Nat.testBit_two_pow_sub_succ hx, Nat.testBit_mod_two_pow]
  simp [hi]

theorem not64_lt (x : Nat) : not64 x < 2 ^ 64 := by
  unfold not64
  have : 0 < 2 ^ 64 := by decide
  omega

theorem mask_union (A B : charset) (i : Nat) :
    (A + B).mask_ i = A.mask_ i ||| B.mask_ i := by
  show (union A B).mask_ i = _
  match i with
  | 0 => rfl
  | 1 => rfl
  | 2 => rfl
  | 3 => rfl
  | _ + 4 => simp [mask_]

theorem mask_diff (A B : charset) (i : Nat) :
    (A - B).mask_ i = A.mask_ i &&& not64 (B.mask_ i) := by
  show (diff A B).mask_ i = _
  match i with
  | 0 => rfl
  | 1 => rfl
  | 2 => rfl
  | 3 => rfl
  | _ + 4 => simp [mask_]

theorem mask_compl (A : charset) (i : Nat) (hi : i < 4) :
    (~~~A).mask_ i = not64 (A.mask_ i) := by
  show (compl A).mask_ i = _
  match i, hi with
  | 0, _ => rfl
  | 1, _ => rfl
  | 2, _ => rfl
  | 3, _ => rfl

theorem contains_union (A B : charset) (b : Nat) :
    (A + B).contains b = (A.contains b || B.contains b) := by
  simp only [contains_eq_testBit, mask_union, Nat.testBit_or]

theorem contains_diff (A B : charset) (b : Nat) :
    (A - B).contains b = (A.contains b && !B.contains b) := by
  simp only [contains_eq_testBit, mask_diff, Nat.testBit_and,
    testBit_not64 _ _ (byte_shift_lt b)]

theorem contains_compl (A : charset) (b : Nat) :
    (~~~A).contains b = !A.contains b := by
  simp only [contains_eq_testBit, mask_compl _ _ (lo_lt b),
    testBit_not64 _ _ (byte_shift_lt b)]

theorem contains_empty (b : Nat) : ({} : charset).contains b = false := by
  rw [contains_eq_testBit]
  have h := lo_lt b
  have : ({} : charset).mask_ (lo b) = 0 := by
    generalize lo b = i at h
    match i, h with
    | 0, _ => rfl
    | 1, _ => rfl
    | 2, _ => rfl
    | 3, _ => rfl
  rw [this, Nat.zero_testBit]

/-- The word of `charset(ch)` selected by index `i`. -/
theorem mask_ofChar (ch i : Nat) (hi : i < 4) :
    (ofChar ch).mask_ i = if lo ch = i then 2 ^ ((ch % 256) >>> 2) else 0 := by
  rw [← hi_eq_two_pow]
  match i, hi with
  | 0, _ => rfl
  | 1, _ => rfl
  | 2, _ => rfl
  | 3, _ => rfl

/-- A byte is determined by its low two bits and its high six bits. -/
theorem byte_split (c : Nat) : c % 256 = 4 * ((c % 256) >>> 2) + lo c := by
  rw [lo_eq_mod, Nat.shiftRight_eq_div_pow]
  have : c % 256 < 256 := Nat.mod_lt _ (by decide)
  omega

theorem contains_ofChar (ch b : Nat) :
    (ofChar ch).contains b = decide (b % 256 = ch % 256) := by
  rw [contains_eq_testBit, mask_ofChar _ _ (lo_lt b)]
  have hb := byte_split b
  have hc := byte_split ch
  by_cases hlo : lo ch = lo b
  · rw [if_pos hlo, Nat.testBit_two_pow]
    by_cases hhi : (ch % 256) >>> 2 = (b % 256) >>> 2
    · have : b % 256 = ch % 256 := by omega
      simp [hhi, this]
    · have : b % 256 ≠ ch % 256 := by
        intro e; apply hhi; rw [e]
      simp [hhi, this]
  · rw [if_neg hlo, Nat.zero_testBit]
    have : b % 256 ≠ ch % 256 := by
      intro e; apply hlo
      rw [lo_eq_mod, lo_eq_mod]; omega
    simp [this]

/-! ### The string constructor -/

/-- The set accumulated by `construct(char const*)` over the bytes that precede
the terminating NUL. -/
theorem construct_append_nul (pre rest : List Nat) (h : ∀ c ∈ pre, c % 256 ≠ 0) :
    construct (pre ++ 0 :: rest) = some (pre.foldr (fun c r => ofChar c + r) {}) := by
  induction pre with
  | nil => simp [construct]
  | cons c tl ih =>
    have hc : c % 256 ≠ 0 := h c (List.mem_cons_self _ _)
    have htl : ∀ d ∈ tl, d % 256 ≠ 0 := fun d hd => h d (List.mem_cons_of_mem _ hd)
    have e : construct (c :: (tl ++ 0 :: rest))
        = match construct (tl ++ 0 :: rest) with
          | none => none
          | some r => some (ofChar c + r) := by
      rw [construct, if_neg hc]
    rw [List.cons_append, e, ih htl, List.foldr_cons]

theorem contains_foldr (pre : List Nat) (b : Nat) :
    (pre.foldr (fun c r => ofChar c + r) {}).contains b
      = pre.any (fun c => decide (b % 256 = c % 256)) := by
  induction pre with
  | nil => simp [contains_empty]
  | cons c tl ih =>
    simp only [List.foldr_cons, List.any_cons, contains_union, contains_ofChar, ih]

/-- For bytes, membership in the accumulated set is membership in the list. -/
theorem contains_foldr_iff (pre : List Nat) (hpre : ∀ c ∈ pre, c < 256) (b : Nat)
    (hb : b < 256) :
    (pre.foldr (fun c r => ofChar c + r) {}).contains b = true ↔ b ∈ pre := by
  rw [contains_foldr, List.any_eq_true]
  constructor
  · rintro ⟨c, hc, hbc⟩
    have h1 : b % 256 = c % 256 := of_decide_eq_true hbc
    have h2 := hpre c hc
    have : b = c := by omega
    rw [this]; exact hc
  · intro hmem
    exact ⟨b, hmem, decide_eq_true rfl⟩

/-! ### The predicate constructor -/

theorem contains_constructBool (ch : Nat) (v : Bool) (b : Nat) :
    (constructBool ch v).contains b = (v && decide (b % 256 = ch % 256)) := by
  unfold constructBool
  cases v
  · simp [contains_empty]
  · simp [contains_ofChar]

/-- The set returned by `construct(pred, ch)` holds the bytes from `ch` up to
`255` that satisfy `pred`. -/
theorem contains_constructPred (pred : Nat → Bool) (n ch : Nat)
    (hn : 255 - ch % 256 = n) (b : Nat) :
    (constructPred pred ch).contains b
      = (decide (ch % 256 ≤ b % 256) && pred (b % 256)) := by
  induction n generalizing ch with
  | zero =>
    have hlt : ch % 256 < 256 := Nat.mod_lt _ (by decide)
    have hblt : b % 256 < 256 := Nat.mod_lt _ (by decide)
    have h255 : ch % 256 = 255 := by omega
    rw [constructPred, if_pos h255, contains_constructBool, h255]
    by_cases hb : b % 256 = 255
    · simp [hb]
    · have : ¬ (255 ≤ b % 256) := by omega
      simp [hb, this]
  | succ k ih =>
    have hlt : ch % 256 < 256 := Nat.mod_lt _ (by decide)
    have hne : ch % 256 ≠ 255 := by omega
    have hnext : (ch % 256 + 1) % 256 = ch % 256 + 1 := Nat.mod_eq_of_lt (by omega)
    rw [constructPred, if_neg hne, contains_union, contains_constructBool,
      ih (ch % 256 + 1) (by omega), hnext, Nat.mod_mod]
    by_cases hb : b % 256 = ch % 256
    · have h1 : ¬ (ch % 256 + 1 ≤ b % 256) := by omega
      have h2 : ch % 256 ≤ b % 256 := by omega
      simp [hb]
    · by_cases hle : ch % 256 + 1 ≤ b % 256
      · have h2 : ch % 256 ≤ b % 256 := by omega
        simp [hb, hle, h2]
      · have h2 : ¬ (ch % 256 ≤ b % 256) := by omega
        simp [hb, hle, h2]

theorem contains_ofPred (pred : Nat → Bool) (b : Nat) :
    (ofPred pred).contains b = pred (b % 256) := by
  unfold ofPred
  rw [contains_constructPred pred _ 0 rfl b]
  simp

/-! ### Well-formed words and extensionality -/

theorem wf_empty : ({} : charset).WF := by decide

theorem wf_ofChar (ch : Nat) : (ofChar ch).WF := by
  have h : hi ch < 2 ^ 64 := Nat.mod_lt _ (by decide)
  have z : (0 : Nat) < 2 ^ 64 := by decide
  unfold WF ofChar
  refine ⟨?_, ?_, ?_, ?_⟩ <;> dsimp only <;> split <;> assumption

theorem wf_union (A B : charset) (hA : A.WF) (hB : B.WF) : (A + B).WF := by
  obtain ⟨a0, a1, a2, a3⟩ := hA
  obtain ⟨b0, b1, b2, b3⟩ := hB
  exact ⟨Nat.or_lt_two_pow a0 b0, Nat.or_lt_two_pow a1 b1,
    Nat.or_lt_two_pow a2 b2, Nat.or_lt_two_pow a3 b3⟩

theorem wf_foldr (pre : List Nat) : (pre.foldr (fun c r => ofChar c + r) {}).WF := by
  induction pre with
  | nil => exact wf_empty
  | cons c tl ih => exact wf_union _ _ (wf_ofChar c) ih

theorem wf_constructBool (ch : Nat) (v : Bool) : (constructBool ch v).WF := by
  unfold constructBool
  cases v
  · exact wf_empty
  · exact wf_ofChar ch

theorem wf_constructPred (pred : Nat → Bool) (n ch : Nat) (hn : 255 - ch % 256 = n) :
    (constructPred pred ch).WF := by
  induction n generalizing ch with
  | zero =>
    have hlt : ch % 256 < 256 := Nat.mod_lt _ (by decide)
    have h255 : ch % 256 = 255 := by omega
    rw [constructPred, if_pos h255]
    exact wf_constructBool _ _
  | succ k ih =>
    have hlt : ch % 256 < 256 := Nat.mod_lt _ (by decide)
    have hne : ch % 256 ≠ 255 := by omega
    have hnext : (ch % 256 + 1) % 256 = ch % 256 + 1 := Nat.mod_eq_of_lt (by omega)
    rw [constructPred, if_neg hne]
    exact wf_union _ _ (wf_constructBool _ _) (ih (ch % 256 + 1) (by omega))

/-- Two 64-bit words with the same 64 low bits are equal. -/
theorem word_ext (x y : Nat) (hx : x < 2 ^ 64) (hy : y < 2 ^ 64)
    (h : ∀ j, j < 64 → x.testBit j = y.testBit j) : x = y := by
  apply Nat.eq_of_testBit_eq
  intro j
  by_cases hj : j < 64
  · exact h j hj
  · have hpow : (2 : Nat) ^ 64 ≤ 2 ^ j := Nat.pow_le_pow_right (by decide) (by omega)
    rw [Nat.testBit_lt_two_pow (Nat.lt_of_lt_of_le hx hpow),
      Nat.testBit_lt_two_pow (Nat.lt_of_lt_of_le hy hpow)]

/-- Bit `j` of word `i` is the membership of byte `4 * j + i`. -/
theorem testBit_mask (cs : charset) (i j : Nat) (hi : i < 4) (hj : j < 64) :
    (cs.mask_ i).testBit j = cs.contains (4 * j + i) := by
  rw [contains_eq_testBit]
  have hlt : 4 * j + i < 256 := by omega
  have hlo : lo (4 * j + i) = i := by rw [lo_eq_mod]; omega
  have hsh : ((4 * j + i) % 256) >>> 2 = j := by
    rw [Nat.mod_eq_of_lt hlt, Nat.shiftRight_eq_div_pow]
    have : (2 : Nat) ^ 2 = 4 := by decide
    omega
  rw [hlo, hsh]

/-- Two well-formed sets with the same members have the same mask words. -/
theorem ext_of_contains (A B : charset) (hA : A.WF) (hB : B.WF)
    (h : ∀ b, b < 256 → A.contains b = B.contains b) : A = B := by
  have key : ∀ i, i < 4 → ∀ j, j < 64 → (A.mask_ i).testBit j = (B.mask_ i).testBit j := by
    intro i hi j hj
    rw [testBit_mask A i j hi hj, testBit_mask B i j hi hj]
    exact h _ (by omega)
  obtain ⟨a0, a1, a2, a3⟩ := hA
  obtain ⟨b0, b1, b2, b3⟩ := hB
  have e0 : A.m0 = B.m0 := word_ext _ _ a0 b0 (key 0 (by decide))
  have e1 : A.m1 = B.m1 := word_ext _ _ a1 b1 (key 1 (by decide))
  have e2 : A.m2 = B.m2 := word_ext _ _ a2 b2 (key 2 (by decide))
  have e3 : A.m3 = B.m3 := word_ext _ _ a3 b3 (key 3 (by decide))
  cases A; cases B
  simp only [mk.injEq]
  exact ⟨e0, e1, e2, e3⟩

/-- The string constructor and the predicate constructor build the same words
when the predicate describes the characters of the string. -/
theorem foldr_eq_ofPred (s : List Nat) (hs : ∀ c ∈ s, c < 256) (pred : Nat → Bool)
    (hp : ∀ c, c < 256 → (pred c = true ↔ c ∈ s)) :
    s.foldr (fun c r => ofChar c + r) {} = ofPred pred := by
  have hw : (ofPred pred).WF := wf_constructPred pred _ 0 rfl
  apply ext_of_contains _ _ (wf_foldr s) hw
  intro b hb
  rw [contains_ofPred, Nat.mod_eq_of_lt hb, Bool.eq_iff_iff,
    contains_foldr_iff s hs b hb, hp b hb]

end charset

/-! ## Facts about `find_if` -/

namespace unicode

theorem find_if_ge (p : Nat → Bool) (l : List Nat) (k : Nat) : k ≤ find_if p l k := by
  induction l generalizing k with
  | nil => simp [find_if]
  | cons c tl ih =>
    unfold find_if
    split
    · exact Nat.le_refl k
    · exact Nat.le_trans (Nat.le_succ k) (ih (k + 1))

theorem find_if_le (p : Nat → Bool) (l : List Nat) (k : Nat) :
    find_if p l k ≤ k + l.length := by
  induction l generalizing k with
  | nil => simp [find_if]
  | cons c tl ih =>
    unfold find_if
    split
    · omega
    · have := ih (k + 1)
      simp only [List.length_cons]
      omega

/-- No byte strictly before the position found satisfies the predicate. -/
theorem find_if_before (p : Nat → Bool) (l : List Nat) (k i : Nat) (c : Nat)
    (hi : k + i < find_if p l k) (hc : l[i]? = some c) : p c = false := by
  induction l generalizing k i with
  | nil => simp at hc
  | cons d tl ih =>
    unfold find_if at hi
    by_cases hd : p d = true
    · rw [if_pos hd] at hi; omega
    · rw [if_neg hd] at hi
      cases i with
      | zero =>
        simp only [List.getElem?_cons_zero, Option.some.injEq] at hc
        rw [← hc]; simpa using hd
      | succ j =>
        simp only [List.getElem?_cons_succ] at hc
        exact ih (k + 1) j (by omega) hc

/-- When the position found is inside the range, the byte there satisfies the
predicate. -/
theorem find_if_at (p : Nat → Bool) (l : List Nat) (k : Nat)
    (h : find_if p l k < k + l.length) :
    ∃ c, l[find_if p l k - k]? = some c ∧ p c = true := by
  induction l generalizing k with
  | nil => simp [find_if] at h
  | cons d tl ih =>
    unfold find_if at h ⊢
    by_cases hd : p d = true
    · rw [if_pos hd]
      exact ⟨d, by simp, hd⟩
    · rw [if_neg hd] at h ⊢
      simp only [List.length_cons] at h
      obtain ⟨c, hc, hpc⟩ := ih (k + 1) (by omega)
      have hge := find_if_ge p tl (k + 1)
      have e : find_if p tl (k + 1) - k = (find_if p tl (k + 1) - (k + 1)) + 1 := by omega
      refine ⟨c, ?_, hpc⟩
      rw [e, List.getElem?_cons_succ]
      exact hc

/-- The position found is the end of the range exactly when no byte satisfies
the predicate. -/
theorem find_if_eq_end (p : Nat → Bool) (l : List Nat) (k : Nat) :
    find_if p l k = k + l.length ↔ ∀ c ∈ l, p c = false := by
  induction l generalizing k with
  | nil => simp [find_if]
  | cons d tl ih =>
    unfold find_if
    by_cases hd : p d = true
    · rw [if_pos hd]
      simp only [List.length_cons, List.mem_cons, forall_eq_or_imp]
      constructor
      · intro h; omega
      · intro h; rw [h.1] at hd; exact Bool.noConfusion hd
    · rw [if_neg hd]
      have hd2 : p d = false := by simpa using hd
      simp only [List.length_cons, List.mem_cons, forall_eq_or_imp]
      have := ih (k + 1)
      constructor
      · intro h
        exact ⟨hd2, this.mp (by omega)⟩
      · intro h
        have := this.mpr h.2
        omega

end unicode

/-! ## The character-set algebra -/

open charset in
/-- C1 (union law): for all sets `A`, `B` and every byte `b`, `b` is a member of
`A + B` exactly when it is a member of `A` or of `B`.  The statement holds for
arbitrary mask words and every argument of `operator()`. -/
theorem union_law (A B : charset) (b : Nat) :
    (A + B).contains b = (A.contains b || B.contains b) :=
  contains_union A B b

open charset in
/-- C2 (difference law): for all sets `A`, `B` and every byte `b`, `b` is a member
of `A - B` exactly when it is a member of `A` and not of `B`; and the documented
example `charset("abcdefghijklmnopqrstuvwxyz") - "aeiou"` has as members exactly
the lowercase letters that are not vowels. -/
theorem difference_law :
    (∀ (A B : charset) (b : Nat),
        (A - B).contains b = (A.contains b && !B.contains b)) ∧
    (∃ a v, ofString (literal "abcdefghijklmnopqrstuvwxyz") = some a ∧
        ofString (literal "aeiou") = some v ∧
        ∀ b, b < 256 →
          ((a - v).contains b = true ↔
            (97 ≤ b ∧ b ≤ 122) ∧ b ≠ 97 ∧ b ≠ 101 ∧ b ≠ 105 ∧ b ≠ 111 ∧ b ≠ 117)) := by
  refine ⟨contains_diff, _, _,
    construct_append_nul (bytes "abcdefghijklmnopqrstuvwxyz") [] (by decide),
    construct_append_nul (bytes "aeiou") [] (by decide), ?_⟩
  intro b hb
  have ha := contains_foldr_iff (bytes "abcdefghijklmnopqrstuvwxyz") (by decide) b hb
  have hv := contains_foldr_iff (bytes "aeiou") (by decide) b hb
  have ma : b ∈ bytes "abcdefghijklmnopqrstuvwxyz" ↔ (97 ≤ b ∧ b ≤ 122) := by
    simp [bytes]; omega
  have mv : b ∈ bytes "aeiou" ↔ (b = 97 ∨ b = 101 ∨ b = 105 ∨ b = 111 ∨ b = 117) := by
    simp [bytes]
  rw [contains_diff, Bool.and_eq_true, Bool.not_eq_true', ← Bool.not_eq_true, ha, hv, ma, mv]
  omega

open charset in
/-- C3 (complement law): for every set `A` and every byte `b`, `b` is a member of
`~A` exactly when it is not a member of `A`; and the documented example
`~charset("AEIOUaeiou")` has as members every byte but the vowels. -/
theorem complement_law :
    (∀ (A : charset) (b : Nat), (~~~A).contains b = !A.contains b) ∧
    (∃ v, ofString (literal "AEIOUaeiou") = some v ∧
        ∀ b, b < 256 → ((~~~v).contains b = true ↔ b ∉ bytes "AEIOUaeiou")) := by
  refine ⟨contains_compl, _, construct_append_nul (bytes "AEIOUaeiou") [] (by decide), ?_⟩
  intro b hb
  have hv := contains_foldr_iff (bytes "AEIOUaeiou") (by decide) b hb
  rw [contains_compl, Bool.not_eq_true', ← Bool.not_eq_true, hv]

/-! ## The constructors -/

open charset in
/-- C4 (single-character constructor): for all bytes `ch` and `b`, `b` is a
member of `charset(ch)` if and only if `b = ch`. -/
theorem single_char_constructor (ch b : Nat) (hch : ch < 256) (hb : b < 256) :
    (ofChar ch).contains b = true ↔ b = ch := by
  rw [contains_ofChar, decide_eq_true_iff, Nat.mod_eq_of_lt hch, Nat.mod_eq_of_lt hb]

open charset in
/-- Witness of C4 at the documented example `charset('*')`. -/
theorem single_char_constructor_witness :
    42 < 256 ∧ 42 < 256 ∧ ((ofChar 42).contains 42 = true ↔ 42 = 42) :=
  ⟨by decide, by decide, single_char_constructor 42 42 (by decide) (by decide)⟩

open charset in
/-- C5 (string constructor): for every null-terminated string, given by the
non-NUL bytes `pre` that precede its terminator (whatever storage `rest` follows
it), `charset(s)` is constructed and a byte `b` is a member if and only if `b`
is one of the characters of `pre`; byte 0 is never a member, and `charset("")`
is the empty set. -/
theorem string_constructor (pre rest : List Nat) (hpre : ∀ c ∈ pre, 0 < c ∧ c < 256) :
    ∃ cs, ofString (pre ++ 0 :: rest) = some cs ∧
      (∀ b, b < 256 → (cs.contains b = true ↔ b ∈ pre)) ∧
      cs.contains 0 = false ∧
      (pre = [] → cs = {} ∧ ∀ b, cs.contains b = false) := by
  have hnz : ∀ c ∈ pre, c % 256 ≠ 0 := by
    intro c hc
    have := hpre c hc
    rw [Nat.mod_eq_of_lt this.2]; omega
  have hlt : ∀ c ∈ pre, c < 256 := fun c hc => (hpre c hc).2
  refine ⟨_, construct_append_nul pre rest hnz, contains_foldr_iff pre hlt, ?_, ?_⟩
  · cases h : (pre.foldr (fun c r => ofChar c + r) {}).contains 0
    · rfl
    · have hm := (contains_foldr_iff pre hlt 0 (by decide)).mp h
      exact absurd (hpre 0 hm).1 (by decide)
  · intro he
    subst he
    exact ⟨rfl, contains_empty⟩

open charset in
/-- Witness of C5 at the documented example `"0123456789"`. -/
theorem string_constructor_witness :
    (∀ c ∈ bytes "0123456789", 0 < c ∧ c < 256) ∧
    ∃ cs, ofString (bytes "0123456789" ++ 0 :: []) = some cs ∧
      (∀ b, b < 256 → (cs.contains b = true ↔ b ∈ bytes "0123456789")) ∧
      cs.contains 0 = false ∧
      (bytes "0123456789" = [] → cs = {} ∧ ∀ b, cs.contains b = false) :=
  ⟨by decide, string_constructor (bytes "0123456789") [] (by decide)⟩

open charset in
/-- C6 (predicate constructor): for every predicate `pred` on bytes and every
byte `b` (0 and 255 included), membership of `b` in `charset(pred)` equals
`pred(b)`. -/
theorem predicate_constructor (pred : Nat → Bool) (b : Nat) (hb : b < 256) :
    (ofPred pred).contains b = pred b := by
  rw [contains_ofPred, Nat.mod_eq_of_lt hb]

open charset in
/-- Witness of C6 at the documented predicate `is_digit` and the last byte. -/
theorem predicate_constructor_witness :
    255 < 256 ∧ (ofPred is_digit).contains 255 = is_digit 255 :=
  ⟨by decide, predicate_constructor is_digit 255 (by decide)⟩

/-! ## `percent_encode_index` -/

open unicode in
/-- C7: `percent_encode_index(input, cs)` is at most `input.size()`; no byte
before it is in `cs`; when it is below `input.size()` the byte at that index is
in `cs` (so it is the least such index); and it equals `input.size()` if and
only if no byte of `input` is a member of `cs`. -/
theorem percent_encode_index_least (input : List Nat) (cs : charset) :
    percent_encode_index input cs ≤ input.length ∧
    (∀ i c, i < percent_encode_index input cs → input[i]? = some c →
        cs.contains c = false) ∧
    (percent_encode_index input cs < input.length →
        ∃ c, input[percent_encode_index input cs]? = some c ∧ cs.contains c = true) ∧
    (percent_encode_index input cs = input.length ↔
        ∀ c ∈ input, cs.contains c = false) := by
  have e : percent_encode_index input cs = find_if cs.contains input 0 := rfl
  refine ⟨?_, ?_, ?_, ?_⟩
  · have := find_if_le cs.contains input 0
    rw [e]; omega
  · intro i c hi hc
    exact find_if_before cs.contains input 0 i c (by rw [e] at hi; omega) hc
  · intro h
    have := find_if_at cs.contains input 0 (by rw [e] at h; omega)
    rw [e]; simpa using this
  · have := find_if_eq_end cs.contains input 0
    rw [e]; simpa using this

/-! ## Agreement of the constructors and the bitmap layout -/

open charset in
/-- C8: for every string `s` without a NUL byte and every predicate `pred` that
is true exactly on the characters of `s`, `charset(s)` and `charset(pred)` have
identical mask words; and the documented instance: `charset("0123456789")`
equals `charset(is_digit)`. -/
theorem string_and_predicate_agree (s : List Nat) (pred : Nat → Bool)
    (hs : ∀ c ∈ s, 0 < c ∧ c < 256)
    (hp : ∀ c, c < 256 → (pred c = true ↔ c ∈ s)) :
    ofString (s ++ [0]) = some (ofPred pred) ∧
    ofString (literal "0123456789") = some (ofPred is_digit) := by
  have key : ∀ (t : List Nat) (q : Nat → Bool), (∀ c ∈ t, 0 < c ∧ c < 256) →
      (∀ c, c < 256 → (q c = true ↔ c ∈ t)) → ofString (t ++ [0]) = some (ofPred q) := by
    intro t q ht hq
    have hnz : ∀ c ∈ t, c % 256 ≠ 0 := by
      intro c hc
      have := ht c hc
      rw [Nat.mod_eq_of_lt this.2]; omega
    have e := construct_append_nul t [] hnz
    rw [foldr_eq_ofPred t (fun c hc => (ht c hc).2) q hq] at e
    exact e
  refine ⟨key s pred hs hp, key (bytes "0123456789") is_digit (by decide) ?_⟩
  intro c _
  simp [is_digit, bytes]
  omega

open charset in
/-- Witness of C8 at the vowels, with the predicate written out. -/
theorem string_and_predicate_agree_witness :
    (∀ c ∈ bytes "aeiou", 0 < c ∧ c < 256) ∧
    (∀ c, c < 256 → ((decide (c ∈ bytes "aeiou")) = true ↔ c ∈ bytes "aeiou")) ∧
    ofString (bytes "aeiou" ++ [0]) = some (ofPred (fun c => decide (c ∈ bytes "aeiou"))) ∧
    ofString (literal "0123456789") = some (ofPred is_digit) :=
  ⟨by decide, fun _ _ => decide_eq_true_iff,
    string_and_predicate_agree (bytes "aeiou") (fun c => decide (c ∈ bytes "aeiou"))
      (by decide) (fun _ _ => decide_eq_true_iff)⟩

open charset in
/-- C10 (bitmap layout): for every byte `ch`, word number `ch & 3` of
`charset(ch)` is `2 ^ (ch >> 2)` and the other three words are `0`; and for
every set `cs` and byte `b`, membership of `b` is bit `b >> 2` of word
`b & 3`. -/
theorem bitmap_layout (ch b : Nat) (cs : charset) (hch : ch < 256) (hb : b < 256) :
    (ofChar ch).mask_ (ch &&& 3) = 2 ^ (ch >>> 2) ∧
    (∀ i, i < 4 → i ≠ ch &&& 3 → (ofChar ch).mask_ i = 0) ∧
    cs.contains b = (cs.mask_ (b &&& 3)).testBit (b >>> 2) := by
  have lc : lo ch = ch &&& 3 := by unfold lo; rw [Nat.mod_eq_of_lt hch]
  have lb : lo b = b &&& 3 := by unfold lo; rw [Nat.mod_eq_of_lt hb]
  refine ⟨?_, ?_, ?_⟩
  · rw [← lc, mask_ofChar ch _ (lo_lt ch), if_pos rfl, Nat.mod_eq_of_lt hch]
  · intro i hi hne
    rw [mask_ofChar ch i hi, if_neg]
    rw [lc]; exact fun h => hne h.symm
  · rw [contains_eq_testBit, lb, Nat.mod_eq_of_lt hb]

open charset in
/-- Witness of C10 at `'*'` (byte 42: word 2, bit 10) and the digits. -/
theorem bitmap_layout_witness :
    42 < 256 ∧ 48 < 256 ∧
    (ofChar 42).mask_ (42 &&& 3) = 2 ^ (42 >>> 2) ∧
    (∀ i, i < 4 → i ≠ 42 &&& 3 → (ofChar 42).mask_ i = 0) ∧
    (ofPred is_digit).contains 48
      = ((ofPred is_digit).mask_ (48 &&& 3)).testBit (48 >>> 2) :=
  ⟨by decide, by decide, bitmap_layout 42 48 (ofPred is_digit) (by decide) (by decide)⟩

/-! ## The setters of `url_aggregator` -/

open url_aggregator in
/-- C9, as stated, fails: `set_search` is declared `void`, so a call of it yields
no boolean success (here on the value for `http://a/` with input `?q`). -/
theorem set_search_returns_no_boolean :
    setter.set_search.declared_return = return_type.void ∧
    ¬ ∃ ok, (call rejecting setter.set_search example_url (bytes "?q")).ret = some ok := by
  refine ⟨rfl, ?_⟩
  rintro ⟨ok, h⟩
  have e : (call rejecting setter.set_search example_url (bytes "?q")).ret = none := rfl
  rw [e] at h
  exact Option.noConfusion h

open url_aggregator in
/-- C9 (amended): every setter of `url_aggregator` other than `set_search` is
declared `bool` and returns a boolean success, `set_search` is declared `void`
and returns nothing; and for every URL value `u` and input `x`, if a setter
returns `false` then the value after the call equals `u` (buffer and
components). -/
theorem setter_atomicity (c : collaborators) (s : setter) (u : url_aggregator)
    (x : List Nat) :
    (s ≠ setter.set_search →
        s.declared_return = return_type.bool ∧ ∃ ok, (call c s u x).ret = some ok) ∧
    (s = setter.set_search →
        s.declared_return = return_type.void ∧ (call c s u x).ret = none) ∧
    ((call c s u x).ret = some false → (call c s u x).url = u) := by
  have hre : ∀ st inp, (∃ ok, (reenter c st u inp).ret = some ok) ∧
      ((reenter c st u inp).ret = some false → (reenter c st u inp).url = u) := by
    intro st inp
    unfold reenter
    cases c.machine st u inp with
    | none => exact ⟨⟨false, rfl⟩, fun _ => rfl⟩
    | some v => exact ⟨⟨true, rfl⟩, fun h => by simp at h⟩
  cases s
  case set_username =>
    refine ⟨fun _ => ⟨rfl, ?_⟩, fun h => by simp at h, ?_⟩ <;>
      simp only [call] <;> split <;> simp
  case set_password =>
    refine ⟨fun _ => ⟨rfl, ?_⟩, fun h => by simp at h, ?_⟩ <;>
      simp only [call] <;> split <;> simp
  case set_href =>
    exact ⟨fun _ => ⟨rfl, (hre _ _).1⟩, fun h => by simp at h, (hre _ _).2⟩
  case set_port =>
    refine ⟨fun _ => ⟨rfl, ?_⟩, fun h => by simp at h, ?_⟩ <;>
      simp only [call] <;> split
    · exact ⟨false, rfl⟩
    · exact (hre _ _).1
    · exact fun _ => rfl
    · exact (hre _ _).2
  case set_search =>
    have e : (call c setter.set_search u x).ret = none := rfl
    refine ⟨fun h => absurd rfl h, fun _ => ⟨rfl, e⟩, ?_⟩
    intro h
    rw [e] at h
    exact Option.noConfusion h
  case set_pathname =>
    refine ⟨fun _ => ⟨rfl, ?_⟩, fun h => by simp at h, ?_⟩ <;>
      simp only [call] <;> split
    · exact ⟨_, rfl⟩
    · exact (hre _ _).1
    · exact fun _ => rfl
    · exact (hre _ _).2
  case set_host =>
    exact ⟨fun _ => ⟨rfl, (hre _ _).1⟩, fun h => by simp at h, (hre _ _).2⟩
  case set_hostname =>
    exact ⟨fun _ => ⟨rfl, (hre _ _).1⟩, fun h => by simp at h, (hre _ _).2⟩
  case set_protocol =>
    exact ⟨fun _ => ⟨rfl, (hre _ _).1⟩, fun h => by simp at h, (hre _ _).2⟩

open url_aggregator in
/-- Witness of C9 (amended) at the scenario `set_port("99999")` on the value for
`http://a/`: the call returns `false` and the value is unchanged. -/
theorem setter_atomicity_witness :
    (call rejecting setter.set_port example_url (bytes "99999")).ret = some false ∧
    (call rejecting setter.set_port example_url (bytes "99999")).url = example_url :=
  ⟨rfl, (setter_atomicity rejecting setter.set_port example_url (bytes "99999")).2.2 rfl⟩

/-! ## `percent_encode_index` and the percent-encoding rule -/

namespace unicode

/-- Predicates that agree on the bytes of the range find the same position. -/
theorem find_if_congr (p q : Nat → Bool) (l : List Nat) (k : Nat)
    (h : ∀ b ∈ l, p b = q b) : find_if p l k = find_if q l k := by
  induction l generalizing k with
  | nil => rfl
  | cons c tl ih =>
    have hc : p c = q c := h c (List.mem_cons_self _ _)
    have htl : ∀ b ∈ tl, p b = q b := fun b hb => h b (List.mem_cons_of_mem _ hb)
    unfold find_if
    rw [hc, ih (k + 1) htl]

/-- A byte is emitted as `%XX` exactly under the condition of the rule. -/
theorem percent_encode_ne_self (b : Nat) (cs : charset) :
    (percent_encode b cs != [b])
      = (cs.contains b || decide (0x7E < b) || decide (b < 0x20)) := by
  unfold percent_encode
  cases h : (cs.contains b || decide (0x7E < b) || decide (b < 0x20))
  · simp
  · simp

theorem percent_encode_length_pos (b : Nat) (cs : charset) :
    1 ≤ (percent_encode b cs).length := by
  unfold percent_encode
  split <;> simp

theorem percent_encode_string_length (s : List Nat) (cs : charset) :
    s.length ≤ (percent_encode_string s cs false).length := by
  induction s with
  | nil => simp [percent_encode_string]
  | cons c tl ih =>
    have h1 := percent_encode_length_pos c cs
    have e : percent_encode_string (c :: tl) cs false
        = percent_encode c cs ++ percent_encode_string tl cs false := by
      simp [percent_encode_string]
    rw [e, List.length_append, List.length_cons]
    omega

/-- Encoding a string returns it unchanged exactly when every byte is emitted
verbatim. -/
theorem percent_encode_string_eq_self (s : List Nat) (cs : charset) :
    percent_encode_string s cs false = s ↔ ∀ b ∈ s, percent_encode b cs = [b] := by
  induction s with
  | nil => simp [percent_encode_string]
  | cons c tl ih =>
    have e : percent_encode_string (c :: tl) cs false
        = percent_encode c cs ++ percent_encode_string tl cs false := by
      simp [percent_encode_string]
    rw [e]
    simp only [List.mem_cons, forall_eq_or_imp]
    by_cases hc : percent_encode c cs = [c]
    · rw [hc]
      simp only [List.singleton_append, List.cons.injEq, true_and]
      exact ih
    · constructor
      · intro h
        exfalso
        have hlen := congrArg List.length h
        have h3 : (percent_encode c cs).length = 3 := by
          unfold percent_encode at hc ⊢
          split
          · rfl
          · rename_i hn; rw [if_neg hn] at hc; exact absurd rfl hc
        have := percent_encode_string_length tl cs
        rw [List.length_append, List.length_cons, h3] at hlen
        omega
      · intro h
        exact absurd h.1 hc

end unicode

open unicode in
/-- C11, as stated, fails: on the one-byte input `0x80` and the empty set,
`percent_encode_index` returns `input.size()` although `percent_encode` emits
the byte as `%80`, the first byte the rule escapes is at index 0, and encoding
the input does not leave it verbatim. -/
theorem percent_encode_index_ignores_byte_range :
    percent_encode_index [0x80] {} = [0x80].length ∧
    percent_encode 0x80 {} = bytes "%80" ∧
    find_if (fun b => percent_encode b {} != [b]) [0x80] 0 = 0 ∧
    percent_encode_string [0x80] {} false ≠ [0x80] := by
  decide

open unicode in
/-- C11 (amended): for every input and every set `cs` that contains each byte
of the input that is > 0x7E or < 0x20, `percent_encode_index(input, cs)` is the
index of the first byte that `percent_encode(byte, cs)` emits as `%XX`, that is
the first byte that is in `cs` or is > 0x7E or is < 0x20, and it equals
`input.size()` exactly when percent-encoding the input under `cs` leaves every
byte verbatim. -/
theorem percent_encode_index_rule (input : List Nat) (cs : charset)
    (h : ∀ b ∈ input, (0x7E < b ∨ b < 0x20) → cs.contains b = true) :
    percent_encode_index input cs
      = find_if (fun b => percent_encode b cs != [b]) input 0 ∧
    percent_encode_index input cs
      = find_if (fun b => cs.contains b || decide (0x7E < b) || decide (b < 0x20)) input 0 ∧
    (percent_encode_index input cs = input.length ↔
      ∀ b ∈ input, percent_encode b cs = [b]) ∧
    (percent_encode_index input cs = input.length ↔
      percent_encode_string input cs false = input) := by
  have e : percent_encode_index input cs = find_if cs.contains input 0 := rfl
  have hrule : ∀ b ∈ input,
      cs.contains b = (cs.contains b || decide (0x7E < b) || decide (b < 0x20)) := by
    intro b hb
    cases hc : cs.contains b
    · have h1 : ¬ (0x7E < b) := fun hgt => by
        have := h b hb (Or.inl hgt); rw [hc] at this; exact Bool.noConfusion this
      have h2 : ¬ (b < 0x20) := fun hlt => by
        have := h b hb (Or.inr hlt); rw [hc] at this; exact Bool.noConfusion this
      simp [h1, h2]
    · simp
  have hend : percent_encode_index input cs = input.length ↔
      ∀ b ∈ input, percent_encode b cs = [b] := by
    rw [e]
    have := find_if_eq_end cs.contains input 0
    rw [Nat.zero_add] at this
    rw [this]
    constructor
    · intro hall b hb
      have hne := percent_encode_ne_self b cs
      rw [← hrule b hb, hall b hb] at hne
      simpa using hne
    · intro hall b hb
      have hne := percent_encode_ne_self b cs
      rw [← hrule b hb, hall b hb] at hne
      simpa using hne.symm
  refine ⟨?_, ?_, hend, ?_⟩
  · rw [e]
    apply find_if_congr
    intro b hb
    rw [percent_encode_ne_self]
    exact hrule b hb
  · rw [e]
    exact find_if_congr _ _ input 0 hrule
  · rw [percent_encode_string_eq_self]
    exact hend

open unicode in
/-- Witness of C11 (amended): the input `a`, `0x80` under the set holding `0x80`. -/
theorem percent_encode_index_rule_witness :
    (∀ b ∈ [97, 0x80], (0x7E < b ∨ b < 0x20) → (charset.ofChar 0x80).contains b = true) ∧
    percent_encode_index [97, 0x80] (charset.ofChar 0x80)
      = find_if (fun b => percent_encode b (charset.ofChar 0x80) != [b]) [97, 0x80] 0 :=
  ⟨by decide, (percent_encode_index_rule [97, 0x80] (charset.ofChar 0x80) (by decide)).1⟩

/-! ## Further facts about the representation -/

namespace charset

theorem wf_diff (A B : charset) : (A - B).WF :=
  ⟨Nat.and_lt_two_pow _ (not64_lt _), Nat.and_lt_two_pow _ (not64_lt _),
    Nat.and_lt_two_pow _ (not64_lt _), Nat.and_lt_two_pow _ (not64_lt _)⟩

theorem wf_compl (A : charset) : (~~~A).WF :=
  ⟨not64_lt _, not64_lt _, not64_lt _, not64_lt _⟩

/-- The set accumulated over a concatenation is the union of the two sets. -/
theorem foldr_append_union (s1 s2 : List Nat) :
    (s1 ++ s2).foldr (fun c r => ofChar c + r) {}
      = s1.foldr (fun c r => ofChar c + r) {} + s2.foldr (fun c r => ofChar c + r) {} := by
  apply ext_of_contains _ _ (wf_foldr _) (wf_union _ _ (wf_foldr _) (wf_foldr _))
  intro b _
  rw [contains_union, contains_foldr, contains_foldr, contains_foldr, List.any_append]

/-- Lists with the same elements accumulate the same set. -/
theorem foldr_congr_mem (s t : List Nat) (h : ∀ c, c ∈ t ↔ c ∈ s) :
    t.foldr (fun c r => ofChar c + r) {} = s.foldr (fun c r => ofChar c + r) {} := by
  apply ext_of_contains _ _ (wf_foldr _) (wf_foldr _)
  intro b _
  rw [contains_foldr, contains_foldr, Bool.eq_iff_iff, List.any_eq_true, List.any_eq_true]
  constructor
  · rintro ⟨c, hc, hb⟩
    exact ⟨c, (h c).mp hc, hb⟩
  · rintro ⟨c, hc, hb⟩
    exact ⟨c, (h c).mpr hc, hb⟩

theorem nonzero_byte_mod (s : List Nat) (hs : ∀ c ∈ s, 0 < c ∧ c < 256) :
    ∀ c ∈ s, c % 256 ≠ 0 := by
  intro c hc
  have := hs c hc
  rw [Nat.mod_eq_of_lt this.2]
  omega

end charset

/-! ## Totality, bounds and algebra of the representation -/

open charset in
/-- C12: the helper `construct(pred, ch)` is total.  For every predicate and
every start byte `ch`: at `ch = 255` it returns without recursing; below 255 it
recurses on `ch + 1`, which does not wrap and decreases `255 - ch`; and the set
returned has as members exactly the bytes `b` with `ch <= b <= 255` and
`pred(b)`. -/
theorem construct_pred_total (pred : Nat → Bool) (ch b : Nat) (hch : ch < 256)
    (hb : b < 256) :
    (ch = 255 → constructPred pred ch = constructBool ch (pred ch)) ∧
    (ch ≠ 255 →
      (ch + 1) % 256 = ch + 1 ∧ 255 - (ch + 1) < 255 - ch ∧
      constructPred pred ch
        = constructBool ch (pred ch) + constructPred pred (ch + 1)) ∧
    ((constructPred pred ch).contains b = true ↔ (ch ≤ b ∧ b ≤ 255 ∧ pred b = true)) := by
  have hm : ch % 256 = ch := Nat.mod_eq_of_lt hch
  refine ⟨?_, ?_, ?_⟩
  · intro h
    have h255 : ch % 256 = 255 := by omega
    rw [constructPred, if_pos h255, hm]
  · intro h
    have hne : ¬ (ch % 256 = 255) := by omega
    refine ⟨Nat.mod_eq_of_lt (by omega), by omega, ?_⟩
    rw [constructPred, if_neg hne, hm]
  · rw [contains_constructPred pred _ ch rfl b, hm, Nat.mod_eq_of_lt hb,
      Bool.and_eq_true, decide_eq_true_iff]
    constructor
    · rintro ⟨h1, h2⟩
      exact ⟨h1, by omega, h2⟩
    · rintro ⟨h1, _, h2⟩
      exact ⟨h1, h2⟩

open charset in
/-- Witness of C12 at the documented predicate `is_digit`, started at `'5'`. -/
theorem construct_pred_total_witness :
    53 < 256 ∧ 57 < 256 ∧
    ((constructPred is_digit 53).contains 57 = true ↔
      (53 ≤ 57 ∧ 57 ≤ 255 ∧ is_digit 57 = true)) :=
  ⟨by decide, by decide, (construct_pred_total is_digit 53 57 (by decide) (by decide)).2.2⟩

open charset in
/-- C13: membership is total and in bounds.  For every byte `c`, `lo(c)` is
`c & 3` and lies in `0..3`, so the access to the four-word array is in bounds;
the shift amount `c >> 2` lies in `0..63`, so `1ULL << (c >> 2)` loses no bit
and is the non-zero single-bit value `2 ^ (c >> 2)`; and `operator()` evaluated
with checked access and checked shift returns the same boolean. -/
theorem membership_in_bounds (cs : charset) (c : Nat) (hc : c < 256) :
    lo c = c &&& 3 ∧ lo c < 4 ∧
    c >>> 2 < 64 ∧ 1 <<< (c >>> 2) < 2 ^ 64 ∧
    hi c = 2 ^ (c >>> 2) ∧ 0 < hi c ∧
    mask_checked cs (lo c) = some (cs.mask_ (lo c)) ∧
    contains_checked cs c = some (cs.contains c) := by
  have hm : c % 256 = c := Nat.mod_eq_of_lt hc
  have hs : c >>> 2 < 64 := by have := byte_shift_lt c; rwa [hm] at this
  have hhi : hi c = 2 ^ (c >>> 2) := by rw [hi_eq_two_pow, hm]
  have hmask : mask_checked cs (lo c) = some (cs.mask_ (lo c)) := by
    have hl := lo_lt c
    generalize lo c = i at hl
    match i, hl with
    | 0, _ => rfl
    | 1, _ => rfl
    | 2, _ => rfl
    | 3, _ => rfl
  refine ⟨by unfold lo; rw [hm], lo_lt c, hs, ?_, hhi, ?_, hmask, ?_⟩
  · rw [Nat.one_shiftLeft]
    exact Nat.pow_lt_pow_right (by decide) hs
  · rw [hhi]
    exact Nat.pos_pow_of_pos _ (by decide)
  · have hsh : shl64_checked 1 ((c % 256) >>> 2) = some (hi c) := by
      unfold shl64_checked hi
      rw [if_pos (byte_shift_lt c)]
    unfold contains_checked
    rw [hsh, hmask]
    rfl

open charset in
/-- Witness of C13 at the last byte, 255 (word 3, bit 63). -/
theorem membership_in_bounds_witness :
    255 < 256 ∧ lo 255 = 255 &&& 3 ∧ lo 255 < 4 ∧
    255 >>> 2 < 64 ∧ 1 <<< (255 >>> 2) < 2 ^ 64 ∧
    hi 255 = 2 ^ (255 >>> 2) ∧ 0 < hi 255 ∧
    mask_checked (ofChar 255) (lo 255) = some ((ofChar 255).mask_ (lo 255)) ∧
    contains_checked (ofChar 255) 255 = some ((ofChar 255).contains 255) :=
  ⟨by decide, membership_in_bounds (ofChar 255) 255 (by decide)⟩

open charset in
/-- C14 (extensionality): the map from a byte `b` to (word index `b & 3`, bit
index `b >> 2`) sends `0..255` into the 4 x 64 mask bits, is injective and
reaches every one of them; hence two sets of 64-bit words that have the same
members have the same four mask words. -/
theorem representation_ext :
    (∀ b, b < 256 → lo b = b &&& 3 ∧ lo b < 4 ∧ b >>> 2 < 64) ∧
    (∀ b1 b2, b1 < 256 → b2 < 256 → lo b1 = lo b2 → b1 >>> 2 = b2 >>> 2 → b1 = b2) ∧
    (∀ i j, i < 4 → j < 64 → ∃ b, b < 256 ∧ lo b = i ∧ b >>> 2 = j) ∧
    (∀ A B : charset, A.WF → B.WF →
      (∀ b, b < 256 → A.contains b = B.contains b) → A = B) := by
  refine ⟨?_, ?_, ?_, ext_of_contains⟩
  · intro b hb
    have hm : b % 256 = b := Nat.mod_eq_of_lt hb
    have hs := byte_shift_lt b
    rw [hm] at hs
    exact ⟨by unfold lo; rw [hm], lo_lt b, hs⟩
  · intro b1 b2 h1 h2 hlo hhi
    have e1 := byte_split b1
    have e2 := byte_split b2
    rw [Nat.mod_eq_of_lt h1] at e1
    rw [Nat.mod_eq_of_lt h2] at e2
    omega
  · intro i j hi hj
    refine ⟨4 * j + i, by omega, ?_, ?_⟩
    · rw [lo_eq_mod]; omega
    · rw [Nat.shiftRight_eq_div_pow]
      have : (2 : Nat) ^ 2 = 4 := by decide
      omega

open charset in
/-- Witness of C14: `charset('*')` and its union with itself have the same
members, hence the same words. -/
theorem representation_ext_witness :
    (ofChar 42).WF ∧ (ofChar 42 + ofChar 42).WF ∧
    (∀ b, b < 256 → (ofChar 42).contains b = (ofChar 42 + ofChar 42).contains b) ∧
    ofChar 42 = ofChar 42 + ofChar 42 :=
  have h : ∀ b, b < 256 → (ofChar 42).contains b = (ofChar 42 + ofChar 42).contains b :=
    fun b _ => by rw [contains_union, Bool.or_self]
  ⟨by decide, by decide, h,
    representation_ext.2.2.2 (ofChar 42) (ofChar 42 + ofChar 42) (by decide) (by decide) h⟩

open charset in
/-- C15: the string constructor sends concatenation to union.  For all strings
`s1`, `s2` without a NUL byte, `charset(s1 s2)` has the same mask words as
`charset(s1) + charset(s2)`; consequently a string `t` with the same characters
as `s1`, in any order and with any multiplicity, constructs the same set. -/
theorem string_concat_union (s1 s2 : List Nat)
    (h1 : ∀ c ∈ s1, 0 < c ∧ c < 256) (h2 : ∀ c ∈ s2, 0 < c ∧ c < 256) :
    (∃ a b, ofString (s1 ++ [0]) = some a ∧ ofString (s2 ++ [0]) = some b ∧
      ofString (s1 ++ s2 ++ [0]) = some (a + b)) ∧
    (∀ t : List Nat, (∀ c ∈ t, 0 < c ∧ c < 256) → (∀ c, c ∈ t ↔ c ∈ s1) →
      ofString (t ++ [0]) = ofString (s1 ++ [0])) := by
  have h12 : ∀ c ∈ s1 ++ s2, 0 < c ∧ c < 256 := by
    intro c hc
    rcases List.mem_append.mp hc with h | h
    · exact h1 c h
    · exact h2 c h
  refine ⟨⟨_, _, construct_append_nul s1 [] (nonzero_byte_mod s1 h1),
    construct_append_nul s2 [] (nonzero_byte_mod s2 h2), ?_⟩, ?_⟩
  · have e := construct_append_nul (s1 ++ s2) [] (nonzero_byte_mod _ h12)
    rw [foldr_append_union] at e
    exact e
  · intro t ht hmem
    have et := construct_append_nul t [] (nonzero_byte_mod t ht)
    have es := construct_append_nul s1 [] (nonzero_byte_mod s1 h1)
    show construct (t ++ [0]) = construct (s1 ++ [0])
    rw [et, es, foldr_congr_mem s1 t hmem]

open charset in
/-- Witness of C15 at the documented literal `"AEIOU" "aeiou"`. -/
theorem string_concat_union_witness :
    (∀ c ∈ bytes "AEIOU", 0 < c ∧ c < 256) ∧ (∀ c ∈ bytes "aeiou", 0 < c ∧ c < 256) ∧
    ∃ a b, ofString (bytes "AEIOU" ++ [0]) = some a ∧
      ofString (bytes "aeiou" ++ [0]) = some b ∧
      ofString (bytes "AEIOU" ++ bytes "aeiou" ++ [0]) = some (a + b) :=
  ⟨by decide, by decide,
    (string_concat_union (bytes "AEIOU") (bytes "aeiou") (by decide) (by decide)).1⟩

open charset in
/-- C16 (De Morgan): for all sets `A` and `B`, `A - B` has the same mask words
as `~(~A + B)`. -/
theorem difference_de_morgan (A B : charset) : A - B = ~~~(~~~A + B) := by
  apply ext_of_contains _ _ (wf_diff A B) (wf_compl _)
  intro b _
  rw [contains_diff, contains_compl, contains_union, contains_compl]
  cases A.contains b <;> cases B.contains b <;> rfl

open charset in
/-- C17: complement is an involution on the representation: for every set `A`
of 64-bit words, `~(~A)` has the same four mask words as `A`. -/
theorem complement_involution (A : charset) (hA : A.WF) : ~~~(~~~A) = A := by
  apply ext_of_contains _ _ (wf_compl _) hA
  intro b _
  rw [contains_compl, contains_compl, Bool.not_not]

open charset in
/-- Witness of C17 at `charset('*')`. -/
theorem complement_involution_witness :
    (ofChar 42).WF ∧ ~~~(~~~(ofChar 42)) = ofChar 42 :=
  ⟨by decide, complement_involution (ofChar 42) (by decide)⟩

end Ada
